import Mathlib

/-
Verification of the identity synchronization engine of irc2me's
desktop identities window (src/desktop/form/identities.h).

The repository provides only the class declaration (identities.h); the
member-function bodies (identities.cpp) are not under src/.  The data
model below follows the fields declared in the header
(`identities`, `identityItems`, `deleteResponseIDs`, `currentIdentity`),
and the behaviour of each operation is modelled from the specification
(spec.md sections 4.1 to 4.3), as the spec directs for code whose
implementation is absent.

`std::map` containers are embedded as association lists with unique
keys; insertion order of first-seen keys is kept so that the rendering
order of the list widget (`identityItems`) can be reasoned about.
-/

namespace Irc2me

/-- Identity id type (`ID_T` in the header); `-1` is the unset sentinel. -/
abbrev ID_T : Type := Int

/-- An identity record: a server-assigned id plus profile fields that are
opaque to the engine (it only stores and forwards them). -/
structure Identity where
  id : ID_T
  fields : String
deriving DecidableEq, Repr

/-- Status code of an asynchronous server reply
(`Protobuf::Messages::Server::ResponseCode`). Modelled from the spec:
the engine only distinguishes success from failure. -/
inductive ResponseCode where
  | responseOK
  | responseError
deriving DecidableEq, Repr

/-- Outbound messages handed to the transport collaborator (spec section 6). -/
inductive OutMsg where
  | addMsg (x : Identity)
  | saveMsg (i : ID_T) (x : Identity)
  | deleteMsg (i : ID_T)
deriving DecidableEq, Repr

/-- Synchronous result of a mutating request (spec section 7:
CallerError is a rejected precondition violation). -/
inductive DeleteResult where
  | ok
  | callerError
deriving DecidableEq, Repr

/-- First-match lookup in an association list (the semantics of
`std::map::find` on unique keys). -/
def alookup {α : Type} : List (ID_T × α) → ID_T → Option α
  | [], _ => none
  | p :: t, k => if p.1 = k then some p.2 else alookup t k

/-- Erase every entry with the given key (the semantics of
`std::map::erase` on unique keys). -/
def aerase {α : Type} : List (ID_T × α) → ID_T → List (ID_T × α)
  | [], _ => []
  | p :: t, k => if p.1 = k then aerase t k else p :: aerase t k

/-- Remove every occurrence of an id from a plain id list. -/
def removeAll : List ID_T → ID_T → List ID_T
  | [], _ => []
  | a :: t, k => if a = k then removeAll t k else a :: removeAll t k

/-- The key sequence of an association list. -/
def keysOf {α : Type} (m : List (ID_T × α)) : List ID_T := m.map Prod.fst

/-- Left-biased choice on options. -/
def ofirst {α : Type} : Option α → Option α → Option α
  | some v, _ => some v
  | none, b => b

/-- Insert-or-overwrite one identity keyed by its id (`std::map`
`operator[]` assignment): overwriting keeps the entry's position,
inserting appends. -/
def upsertOne (m : List (ID_T × Identity)) (x : Identity) : List (ID_T × Identity) :=
  if (alookup m x.id).isSome then
    m.map (fun p => if p.1 = x.id then (p.1, x) else p)
  else m ++ [(x.id, x)]

/-- Upsert a whole pushed batch, in order (spec section 4.1 `upsertMany`). -/
def upsertMany (l : List Identity) (m : List (ID_T × Identity)) : List (ID_T × Identity) :=
  l.foldl upsertOne m

/-- Engine state: the fields declared in `FormIdentities` (identities.h
lines 51 to 59) plus observation logs for the Presentation Adapter
callbacks (`reportError`, `setMutationControlsEnabled`) and the
outbound transport messages, which the spec treats as external effects. -/
structure EngineState where
  identities : List (ID_T × Identity)
  identityItems : List ID_T
  deleteResponseIDs : List (ID_T × ID_T)
  currentIdentity : ID_T
  errorReports : List String
  enableSignals : List Bool
  sent : List OutMsg
deriving DecidableEq, Repr

/-- Modelled from the spec: one step of `addIdentities` (identities.h
line 31; body not under src/). Spec section 4.1: upsert into the
Directory; the UI item index gains an item for a first-seen id and
keeps the existing item otherwise. -/
def pushOne (s : EngineState) (x : Identity) : EngineState :=
  { s with
    identities := upsertOne s.identities x
    identityItems :=
      if x.id ∈ s.identityItems then s.identityItems
      else s.identityItems ++ [x.id] }

/-- Modelled from the spec: `addIdentities` / `onIdentitiesPushed`
(identities.h line 31; body not under src/). Spec section 4.3:
`Directory.upsertMany` over the pushed batch. -/
def addIdentities (s : EngineState) (l : List Identity) : EngineState :=
  l.foldl pushOne s

/-- Replay a sequence of pushes. -/
def replayPushes (s : EngineState) (pss : List (List Identity)) : EngineState :=
  pss.foldl addIdentities s

/-- Modelled from the spec: `deleteFromUI` / `Directory.remove`
(identities.h line 61; body not under src/). Spec section 4.1: returns
whether the id existed; removes the entry and its UI item; clears the
selection when the removed id is the current selection. -/
def deleteFromUI (s : EngineState) (i : ID_T) : Bool × EngineState :=
  ((alookup s.identities i).isSome,
   { s with
     identities := aerase s.identities i
     identityItems := removeAll s.identityItems i
     currentIdentity := if s.currentIdentity = i then -1 else s.currentIdentity })

/-- Modelled from the spec: `on_pushButton_ident_add_clicked` /
`requestAdd` (identities.h line 36; body not under src/). Spec section
4.3: hand the new identity to the transport; no local Directory change. -/
def requestAdd (s : EngineState) (x : Identity) : EngineState :=
  { s with sent := s.sent ++ [OutMsg.addMsg x] }

/-- Modelled from the spec: `on_pushButton_ident_save_clicked` /
`requestSave` (identities.h line 38; body not under src/). Spec section
4.3: send the update; no local Directory change. -/
def requestSave (s : EngineState) (i : ID_T) (x : Identity) : EngineState :=
  { s with sent := s.sent ++ [OutMsg.saveMsg i x] }

/-- Whether some pending delete correlation already targets identity `i`. -/
def pendingDeleteFor (s : EngineState) (i : ID_T) : Bool :=
  s.deleteResponseIDs.any (fun p => decide (p.2 = i))

/-- Modelled from the spec: `on_pushButton_ident_delete_clicked` /
`requestDelete` (identities.h line 40; body not under src/). Spec
section 4.3: preconditions are that the id exists, has no pending
delete, and the fresh request id is unregistered; on success the
correlation `(requestId, identityId)` is registered in
`deleteResponseIDs`, the delete message is sent, and mutating UI input
is disabled (a `false` control signal). On violation: CallerError,
state unchanged. -/
def requestDelete (s : EngineState) (i reqId : ID_T) : DeleteResult × EngineState :=
  if (alookup s.identities i).isSome && !pendingDeleteFor s i
      && !(alookup s.deleteResponseIDs reqId).isSome then
    (DeleteResult.ok,
     { s with
       deleteResponseIDs := s.deleteResponseIDs ++ [(reqId, i)]
       sent := s.sent ++ [OutMsg.deleteMsg i]
       enableSignals := s.enableSignals ++ [false] })
  else (DeleteResult.callerError, s)

/-- Modelled from the spec: `response` / `onResponse` (identities.h line
29; body not under src/). Spec section 4.3 reply handling: resolve the
request id in the Correlator (single-use: the entry is removed); an
unknown correlation is ignored; success removes the identity, failure
reports the message; in either resolved case mutating UI input is
re-enabled exactly once (a `true` control signal). -/
def response (s : EngineState) (reqId : ID_T) (status : ResponseCode)
    (msg : String) : EngineState :=
  match alookup s.deleteResponseIDs reqId with
  | none => s
  | some identid =>
    let s1 : EngineState := { s with deleteResponseIDs := aerase s.deleteResponseIDs reqId }
    let s2 : EngineState :=
      match status with
      | ResponseCode.responseOK => (deleteFromUI s1 identid).2
      | ResponseCode.responseError => { s1 with errorReports := s1.errorReports ++ [msg] }
    { s2 with enableSignals := s2.enableSignals ++ [true] }

/-- The rendering snapshot: Directory values in stored order. -/
def snapshot (s : EngineState) : List Identity := s.identities.map Prod.snd

/-- Last-pushed value for a given id in a flat push sequence. -/
def lastPushed : List Identity → ID_T → Option Identity
  | [], _ => none
  | x :: xs, k =>
    match lastPushed xs k with
    | some v => some v
    | none => if x.id = k then some x else none

/-- Ids of a push batch that are new relative to the given key list,
in order of first occurrence. -/
def firstSeenNew : List Identity → List ID_T → List ID_T
  | [], _ => []
  | x :: xs, ks =>
    if x.id ∈ ks then firstSeenNew xs ks
    else x.id :: firstSeenNew xs (ks ++ [x.id])

/-- The Directory / presentation-item index coupling invariant: an
identity entry exists exactly when a UI item handle exists for its id. -/
def ItemsInv (s : EngineState) : Prop :=
  ∀ k, (alookup s.identities k).isSome ↔ k ∈ s.identityItems

/-- A sample identity used to instantiate theorems with hypotheses. -/
def sampleIdentity : Identity := { id := 1, fields := "A" }

/-- A sample engine state: identity 1 present with a pending delete
correlation registered under request id 5. -/
def sampleState : EngineState :=
  { identities := [(1, sampleIdentity)]
    identityItems := [1]
    deleteResponseIDs := [(5, 1)]
    currentIdentity := -1
    errorReports := []
    enableSignals := []
    sent := [] }

theorem alookup_aerase {α : Type} (m : List (ID_T × α)) (k j : ID_T) :
    alookup (aerase m k) j = if j = k then none else alookup m j := by
  induction m with
  | nil => simp [aerase, alookup]
  | cons p t ih =>
    by_cases hp : p.1 = k
    · rw [show aerase (p :: t) k = aerase t k from by simp [aerase, hp]]
      rw [ih]
      by_cases hj : j = k
      · simp [hj]
      · have hpj : ¬ p.1 = j := fun h => hj (h.symm.trans hp)
        simp [hj, alookup, hpj]
    · rw [show aerase (p :: t) k = p :: aerase t k from by simp [aerase, hp]]
      by_cases hpj : p.1 = j
      · have hj : ¬ j = k := fun h => hp (hpj.trans h)
        simp [alookup, hpj, hj]
      · simp [alookup, hpj, ih]

theorem mem_removeAll (l : List ID_T) (k j : ID_T) :
    j ∈ removeAll l k ↔ j ∈ l ∧ j ≠ k := by
  induction l with
  | nil => simp [removeAll]
  | cons a t ih =>
    by_cases ha : a = k
    · subst ha
      rw [show removeAll (a :: t) a = removeAll t a from by simp [removeAll]]
      rw [ih]
      simp only [List.mem_cons, ne_eq]
      tauto
    · rw [show removeAll (a :: t) k = a :: removeAll t k from by simp [removeAll, ha]]
      simp only [List.mem_cons, ih, ne_eq]
      constructor
      · rintro (h | h)
        · subst h
          exact ⟨Or.inl rfl, ha⟩
        · exact ⟨Or.inr h.1, h.2⟩
      · rintro ⟨h | h, hne⟩
        · exact Or.inl h
        · exact Or.inr ⟨h, hne⟩

theorem alookup_append {α : Type} (a b : List (ID_T × α)) (k : ID_T) :
    alookup (a ++ b) k = ofirst (alookup a k) (alookup b k) := by
  induction a with
  | nil => simp [alookup, ofirst]
  | cons p t ih =>
    by_cases hp : p.1 = k
    · simp [alookup, hp, ofirst]
    · simp [alookup, hp, ih]

theorem alookup_isSome_iff_mem_keys {α : Type} (m : List (ID_T × α)) (k : ID_T) :
    (alookup m k).isSome ↔ k ∈ keysOf m := by
  induction m with
  | nil => simp [alookup, keysOf]
  | cons p t ih =>
    by_cases hp : p.1 = k
    · simp [alookup, keysOf, hp]
    · have hk : ¬ k = p.1 := fun h => hp h.symm
      simp [alookup, keysOf, hp, hk, ih]

theorem alookup_eq_none_of_not_mem {α : Type} (m : List (ID_T × α)) (k : ID_T)
    (h : k ∉ keysOf m) : alookup m k = none := by
  have := (alookup_isSome_iff_mem_keys m k).not.mpr h
  exact Option.not_isSome_iff_eq_none.mp this

theorem alookup_replace (m : List (ID_T × Identity)) (x : Identity) (k : ID_T) :
    alookup (m.map (fun p => if p.1 = x.id then (p.1, x) else p)) k =
      if k = x.id then (if (alookup m x.id).isSome then some x else none)
      else alookup m k := by
  induction m with
  | nil => simp [alookup]
  | cons p t ih =>
    by_cases hp : p.1 = x.id
    · by_cases hk : k = x.id
      · have hpk : p.1 = k := hp.trans hk.symm
        simp [alookup, hp, hk, hpk]
      · have hpk : ¬ p.1 = k := fun h => hk (h.symm.trans hp)
        have hxk : ¬ x.id = k := fun h => hk h.symm
        simp [alookup, hp, hk, hpk, hxk, ih]
    · by_cases hpk : p.1 = k
      · have hk : ¬ k = x.id := fun h => hp (hpk.trans h)
        simp [alookup, hp, hpk, hk]
      · simp [alookup, hp, hpk, ih]

theorem ofirst_none_right {α : Type} (a : Option α) : ofirst a none = a := by
  cases a <;> rfl

theorem ofirst_idem {α : Type} (a b : Option α) : ofirst a (ofirst a b) = ofirst a b := by
  cases a <;> rfl

theorem alookup_upsertOne (m : List (ID_T × Identity)) (x : Identity) (k : ID_T) :
    alookup (upsertOne m x) k = if k = x.id then some x else alookup m k := by
  by_cases hs : (alookup m x.id).isSome
  · rw [show upsertOne m x = m.map (fun p => if p.1 = x.id then (p.1, x) else p) from by
      simp [upsertOne, hs]]
    rw [alookup_replace]
    by_cases hk : k = x.id <;> simp [hk, hs]
  · rw [show upsertOne m x = m ++ [(x.id, x)] from by simp [upsertOne, hs]]
    rw [alookup_append]
    by_cases hk : k = x.id
    · subst hk
      rw [Option.not_isSome_iff_eq_none.mp hs]
      simp [alookup, ofirst]
    · have hxk : ¬ x.id = k := fun h => hk h.symm
      simp [alookup, hk, hxk, ofirst_none_right]

theorem keysOf_replace (m : List (ID_T × Identity)) (x : Identity) :
    keysOf (m.map (fun p => if p.1 = x.id then (p.1, x) else p)) = keysOf m := by
  induction m with
  | nil => rfl
  | cons p t ih =>
    by_cases hp : p.1 = x.id
    · simpa [keysOf, hp] using ih
    · simpa [keysOf, hp] using ih

theorem keysOf_upsertOne (m : List (ID_T × Identity)) (x : Identity) :
    keysOf (upsertOne m x) =
      if (alookup m x.id).isSome then keysOf m else keysOf m ++ [x.id] := by
  by_cases hs : (alookup m x.id).isSome
  · rw [if_pos hs]
    rw [show upsertOne m x = m.map (fun p => if p.1 = x.id then (p.1, x) else p) from by
      simp [upsertOne, hs]]
    exact keysOf_replace m x
  · rw [if_neg hs]
    rw [show upsertOne m x = m ++ [(x.id, x)] from by simp [upsertOne, hs]]
    simp [keysOf]

theorem alookup_upsertMany (l : List Identity) (m : List (ID_T × Identity)) (k : ID_T) :
    alookup (upsertMany l m) k = ofirst (lastPushed l k) (alookup m k) := by
  induction l generalizing m with
  | nil => simp [upsertMany, lastPushed, ofirst]
  | cons x xs ih =>
    rw [show upsertMany (x :: xs) m = upsertMany xs (upsertOne m x) from rfl]
    rw [ih, alookup_upsertOne]
    cases hl : lastPushed xs k with
    | some v => simp [lastPushed, hl, ofirst]
    | none =>
      by_cases hk : k = x.id
      · subst hk
        simp [lastPushed, hl, ofirst]
      · have hxk : ¬ x.id = k := fun h => hk h.symm
        simp [lastPushed, hl, ofirst, hk, hxk]

theorem keysOf_upsertMany (l : List Identity) (m : List (ID_T × Identity)) :
    keysOf (upsertMany l m) = keysOf m ++ firstSeenNew l (keysOf m) := by
  induction l generalizing m with
  | nil => simp [upsertMany, firstSeenNew]
  | cons x xs ih =>
    rw [show upsertMany (x :: xs) m = upsertMany xs (upsertOne m x) from rfl]
    rw [ih]
    by_cases hm : x.id ∈ keysOf m
    · have hs : (alookup m x.id).isSome := (alookup_isSome_iff_mem_keys m x.id).mpr hm
      rw [show keysOf (upsertOne m x) = keysOf m from by simp [keysOf_upsertOne, hs]]
      simp [firstSeenNew, hm]
    · have hs : ¬ (alookup m x.id).isSome :=
        fun h => hm ((alookup_isSome_iff_mem_keys m x.id).mp h)
      rw [show keysOf (upsertOne m x) = keysOf m ++ [x.id] from by simp [keysOf_upsertOne, hs]]
      simp [firstSeenNew, hm]

theorem nodup_append_firstSeenNew (l : List Identity) (ks : List ID_T)
    (h : ks.Nodup) : (ks ++ firstSeenNew l ks).Nodup := by
  induction l generalizing ks with
  | nil => simpa [firstSeenNew] using h
  | cons x xs ih =>
    by_cases hx : x.id ∈ ks
    · simpa [firstSeenNew, hx] using ih ks h
    · have h2 : (ks ++ [x.id]).Nodup := by
        simp [List.nodup_append, h, hx]
      have := ih (ks ++ [x.id]) h2
      simpa [firstSeenNew, hx, List.append_assoc] using this

theorem lastPushed_isSome_of_mem (l : List Identity) (x : Identity) (h : x ∈ l) :
    (lastPushed l x.id).isSome := by
  induction l with
  | nil => cases h
  | cons y ys ih =>
    rcases List.mem_cons.mp h with h1 | h2
    · subst h1
      cases hl : lastPushed ys x.id with
      | some v => simp [lastPushed, hl]
      | none => simp [lastPushed, hl]
    · cases hl : lastPushed ys x.id with
      | some v => simp [lastPushed, hl]
      | none =>
        have := ih h2
        rw [hl] at this
        simp at this

theorem firstSeenNew_eq_nil (l : List Identity) (ks : List ID_T)
    (h : ∀ x ∈ l, x.id ∈ ks) : firstSeenNew l ks = [] := by
  induction l with
  | nil => rfl
  | cons x xs ih =>
    have hx : x.id ∈ ks := h x (List.mem_cons_self x xs)
    simp only [firstSeenNew, if_pos hx]
    exact ih (fun y hy => h y (List.mem_cons_of_mem x hy))

theorem alist_ext {α : Type} (m1 m2 : List (ID_T × α))
    (hnd : (keysOf m1).Nodup) (hk : keysOf m1 = keysOf m2)
    (hl : ∀ k, alookup m1 k = alookup m2 k) : m1 = m2 := by
  induction m1 generalizing m2 with
  | nil =>
    cases m2 with
    | nil => rfl
    | cons q t2 => simp [keysOf] at hk
  | cons p t ih =>
    cases m2 with
    | nil => simp [keysOf] at hk
    | cons q t2 =>
      simp only [keysOf, List.map_cons, List.cons.injEq] at hk
      obtain ⟨hq1, htk⟩ := hk
      have hkeq : keysOf t = keysOf t2 := htk
      have hv : p.2 = q.2 := by
        have h1 := hl p.1
        rw [show alookup (p :: t) p.1 = some p.2 from by simp [alookup]] at h1
        rw [show alookup (q :: t2) p.1 = some q.2 from by simp [alookup, hq1]] at h1
        exact Option.some.inj h1
      have hnd2 : (keysOf t).Nodup := (List.nodup_cons.mp (by simpa [keysOf] using hnd)).2
      have hp1 : p.1 ∉ keysOf t := (List.nodup_cons.mp (by simpa [keysOf] using hnd)).1
      have hp2 : p.1 ∉ keysOf t2 := hkeq ▸ hp1
      have hl2 : ∀ k, alookup t k = alookup t2 k := by
        intro k
        by_cases hkp : k = p.1
        · rw [hkp]
          rw [alookup_eq_none_of_not_mem t p.1 hp1]
          rw [alookup_eq_none_of_not_mem t2 p.1 hp2]
        · have h1 := hl k
          have hnk : ¬ p.1 = k := fun h => hkp h.symm
          have hnq : ¬ q.1 = k := fun h => hkp (hq1.trans h).symm
          rw [show alookup (p :: t) k = alookup t k from by simp [alookup, hnk]] at h1
          rw [show alookup (q :: t2) k = alookup t2 k from by simp [alookup, hnq]] at h1
          exact h1
      have ht : t = t2 := ih t2 hnd2 hkeq hl2
      have hpq : p = q := Prod.ext hq1 hv
      rw [hpq, ht]

theorem upsertMany_idem (l : List Identity) (m : List (ID_T × Identity))
    (hnd : (keysOf m).Nodup) : upsertMany l (upsertMany l m) = upsertMany l m := by
  have hmem : ∀ x ∈ l, x.id ∈ keysOf (upsertMany l m) := by
    intro x hx
    apply (alookup_isSome_iff_mem_keys _ _).mp
    rw [alookup_upsertMany]
    cases hl : lastPushed l x.id with
    | some v => simp [ofirst]
    | none =>
      have := lastPushed_isSome_of_mem l x hx
      rw [hl] at this
      simp at this
  apply alist_ext
  · rw [keysOf_upsertMany]
    rw [firstSeenNew_eq_nil l (keysOf (upsertMany l m)) hmem]
    rw [List.append_nil]
    rw [keysOf_upsertMany]
    exact nodup_append_firstSeenNew l (keysOf m) hnd
  · rw [keysOf_upsertMany]
    rw [firstSeenNew_eq_nil l (keysOf (upsertMany l m)) hmem]
    exact List.append_nil _
  · intro k
    rw [alookup_upsertMany, alookup_upsertMany]
    exact ofirst_idem _ _

theorem identities_addIdentities (s : EngineState) (l : List Identity) :
    (addIdentities s l).identities = upsertMany l s.identities := by
  induction l generalizing s with
  | nil => rfl
  | cons x xs ih =>
    rw [show addIdentities s (x :: xs) = addIdentities (pushOne s x) xs from rfl]
    rw [ih]
    rfl

theorem upsertMany_append (a b : List Identity) (m : List (ID_T × Identity)) :
    upsertMany (a ++ b) m = upsertMany b (upsertMany a m) := by
  simp [upsertMany, List.foldl_append]

theorem identities_replayPushes (s : EngineState) (pss : List (List Identity)) :
    (replayPushes s pss).identities = upsertMany pss.flatten s.identities := by
  induction pss generalizing s with
  | nil => rfl
  | cons ps pss2 ih =>
    rw [show replayPushes s (ps :: pss2) = replayPushes (addIdentities s ps) pss2 from rfl]
    rw [ih, identities_addIdentities]
    rw [show (ps :: pss2).flatten = ps ++ pss2.flatten from rfl]
    rw [upsertMany_append]

theorem keysOf_aerase {α : Type} (m : List (ID_T × α)) (i : ID_T) :
    keysOf (aerase m i) = removeAll (keysOf m) i := by
  induction m with
  | nil => rfl
  | cons p t ih =>
    by_cases hp : p.1 = i
    · rw [show aerase (p :: t) i = aerase t i from by simp [aerase, hp]]
      rw [show removeAll (keysOf (p :: t)) i = removeAll (keysOf t) i from by
        simp [keysOf, removeAll, hp]]
      exact ih
    · rw [show aerase (p :: t) i = p :: aerase t i from by simp [aerase, hp]]
      rw [show removeAll (keysOf (p :: t)) i = p.1 :: removeAll (keysOf t) i from by
        simp [keysOf, removeAll, hp]]
      rw [show keysOf (p :: aerase t i) = p.1 :: keysOf (aerase t i) from rfl]
      rw [ih]

theorem ItemsInv_pushOne (s : EngineState) (x : Identity) (h : ItemsInv s) :
    ItemsInv (pushOne s x) := by
  intro k
  rw [show (pushOne s x).identities = upsertOne s.identities x from rfl]
  rw [alookup_upsertOne]
  by_cases hx : x.id ∈ s.identityItems
  · rw [show (pushOne s x).identityItems = s.identityItems from by simp [pushOne, hx]]
    by_cases hk : k = x.id
    · subst hk
      simp [hx]
    · rw [if_neg hk]
      exact h k
  · rw [show (pushOne s x).identityItems = s.identityItems ++ [x.id] from by
      simp [pushOne, hx]]
    by_cases hk : k = x.id
    · subst hk
      simp
    · rw [if_neg hk]
      simp only [List.mem_append, List.mem_singleton, hk, or_false]
      exact h k

theorem ItemsInv_addIdentities (s : EngineState) (l : List Identity) (h : ItemsInv s) :
    ItemsInv (addIdentities s l) := by
  induction l generalizing s with
  | nil => exact h
  | cons x xs ih =>
    show ItemsInv (addIdentities (pushOne s x) xs)
    exact ih (pushOne s x) (ItemsInv_pushOne s x h)

theorem ItemsInv_requestDelete (s : EngineState) (i r : ID_T) (h : ItemsInv s) :
    ItemsInv (requestDelete s i r).2 := by
  unfold requestDelete
  split
  · exact h
  · exact h

theorem ItemsInv_response (s : EngineState) (r : ID_T) (st : ResponseCode)
    (msg : String) (h : ItemsInv s) : ItemsInv (response s r st msg) := by
  cases hl : alookup s.deleteResponseIDs r with
  | none =>
    rw [show response s r st msg = s from by simp [response, hl]]
    exact h
  | some i =>
    cases st with
    | responseOK =>
      intro k
      have hm := mem_removeAll s.identityItems i k
      by_cases hk : k = i
      · subst hk
        simp [response, hl, deleteFromUI, alookup_aerase, hm]
      · simp [response, hl, deleteFromUI, alookup_aerase, hk, hm, h k]
    | responseError =>
      intro k
      have := h k
      simpa [response, hl] using this

theorem response_unknown_noop (s : EngineState) (r : ID_T) (st : ResponseCode)
    (msg : String) (h : alookup s.deleteResponseIDs r = none) :
    response s r st msg = s := by
  simp [response, h]

/-- C1: when a delete request id `r` is registered in the Correlator for
identity `i`, a success `response` removes `i` from the Directory and
removes the Correlator entry for `r`; any subsequent `response` with the
same request id is a complete no-op (it resolves to Unknown and changes
nothing, so `i` is not re-inserted). -/
theorem response_success_removes_and_is_single_use
    (s : EngineState) (r i : ID_T) (msg msg2 : String) (st2 : ResponseCode)
    (h : alookup s.deleteResponseIDs r = some i) :
    alookup (response s r ResponseCode.responseOK msg).identities i = none ∧
    alookup (response s r ResponseCode.responseOK msg).deleteResponseIDs r = none ∧
    response (response s r ResponseCode.responseOK msg) r st2 msg2 =
      response s r ResponseCode.responseOK msg := by
  have hid : (response s r ResponseCode.responseOK msg).identities
      = aerase s.identities i := by simp [response, h, deleteFromUI]
  have hdr : (response s r ResponseCode.responseOK msg).deleteResponseIDs
      = aerase s.deleteResponseIDs r := by simp [response, h, deleteFromUI]
  have hnone : alookup (response s r ResponseCode.responseOK msg).deleteResponseIDs r
      = none := by
    rw [hdr, alookup_aerase]
    simp
  refine ⟨?_, hnone, ?_⟩
  · rw [hid, alookup_aerase]
    simp
  · exact response_unknown_noop _ r st2 msg2 hnone

/-- C2: replaying any sequence of pushed batches yields the Directory
obtained by upserting every pushed identity, last-pushed value per id
winning over the initial entry; replaying the same sequence a second
time leaves the Directory unchanged. -/
theorem addIdentities_replay_last_wins_and_idempotent
    (s : EngineState) (pss : List (List Identity)) (k : ID_T)
    (hnd : (keysOf s.identities).Nodup) :
    alookup (replayPushes s pss).identities k =
      ofirst (lastPushed pss.flatten k) (alookup s.identities k) ∧
    (replayPushes (replayPushes s pss) pss).identities =
      (replayPushes s pss).identities := by
  constructor
  · rw [identities_replayPushes, alookup_upsertMany]
  · simp only [identities_replayPushes]
    exact upsertMany_idem pss.flatten s.identities hnd

/-- C3: when a delete request id `r` is registered for identity `i`, a
failure `response` leaves the Directory unchanged (so `i` stays
present), removes the Correlator entry for `r`, and produces exactly one
error report carrying the reply message. -/
theorem response_failure_keeps_identity_reports_once
    (s : EngineState) (r i : ID_T) (msg : String)
    (h : alookup s.deleteResponseIDs r = some i) :
    (response s r ResponseCode.responseError msg).identities = s.identities ∧
    (response s r ResponseCode.responseError msg).deleteResponseIDs =
      aerase s.deleteResponseIDs r ∧
    alookup (response s r ResponseCode.responseError msg).deleteResponseIDs r = none ∧
    (response s r ResponseCode.responseError msg).errorReports =
      s.errorReports ++ [msg] := by
  have hdr : (response s r ResponseCode.responseError msg).deleteResponseIDs =
      aerase s.deleteResponseIDs r := by simp [response, h]
  refine ⟨by simp [response, h], hdr, ?_, by simp [response, h]⟩
  rw [hdr, alookup_aerase]
  simp

/-- C4: `requestDelete` on an identity id that is not in the Directory
fails with CallerError and returns the state unchanged (Directory and
Correlator identical to before the call). -/
theorem requestDelete_unknown_id_rejected (s : EngineState) (i r : ID_T)
    (h : alookup s.identities i = none) :
    requestDelete s i r = (DeleteResult.callerError, s) := by
  simp [requestDelete, h]

/-- C5: issuing `requestDelete` twice for the same present identity
before any reply arrives makes the second call fail with CallerError and
leave the state as after the first call, and the Correlator then holds
exactly one entry whose identity id is `i`. -/
theorem requestDelete_double_rejected_single_correlation
    (s : EngineState) (i r1 r2 : ID_T)
    (hpres : (alookup s.identities i).isSome = true)
    (hpend : pendingDeleteFor s i = false)
    (hr1 : alookup s.deleteResponseIDs r1 = none) :
    requestDelete (requestDelete s i r1).2 i r2 =
      (DeleteResult.callerError, (requestDelete s i r1).2) ∧
    ((requestDelete s i r1).2.deleteResponseIDs.filter
        (fun p => decide (p.2 = i))).length = 1 := by
  have hs1 : (requestDelete s i r1).2 =
      { s with
        deleteResponseIDs := s.deleteResponseIDs ++ [(r1, i)]
        sent := s.sent ++ [OutMsg.deleteMsg i]
        enableSignals := s.enableSignals ++ [false] } := by
    simp [requestDelete, hpres, hpend, hr1]
  have hpend1 : pendingDeleteFor (requestDelete s i r1).2 i = true := by
    rw [hs1]
    simp [pendingDeleteFor]
  have key : ∀ S : EngineState, pendingDeleteFor S i = true →
      requestDelete S i r2 = (DeleteResult.callerError, S) := by
    intro S hS
    simp [requestDelete, hS]
  have hfil : s.deleteResponseIDs.filter (fun p => decide (p.2 = i)) = [] := by
    rw [List.filter_eq_nil_iff]
    intro p hp
    intro hcon
    have : s.deleteResponseIDs.any (fun p => decide (p.2 = i)) = true :=
      List.any_eq_true.mpr ⟨p, hp, hcon⟩
    rw [pendingDeleteFor] at hpend
    rw [this] at hpend
    cases hpend
  refine ⟨key _ hpend1, ?_⟩
  rw [hs1]
  simp [List.filter_append, hfil]

/-- C6: a `response` whose request id resolves to a registered delete
correlation signals `setMutationControlsEnabled(true)` exactly once,
both on success and on failure. -/
theorem response_reenables_input_once (s : EngineState) (r i : ID_T)
    (st : ResponseCode) (msg : String)
    (h : alookup s.deleteResponseIDs r = some i) :
    (response s r st msg).enableSignals = s.enableSignals ++ [true] := by
  cases st <;> simp [response, h, deleteFromUI]

/-- C7: `requestAdd` and `requestSave` only hand a message to the
transport; they leave the Directory (and the presentation-item index)
untouched, so entries appear only via a later server push. -/
theorem requestAdd_requestSave_leave_directory_unchanged
    (s : EngineState) (x : Identity) (i : ID_T) (y : Identity) :
    (requestAdd s x).identities = s.identities ∧
    (requestAdd s x).identityItems = s.identityItems ∧
    (requestSave s i y).identities = s.identities ∧
    (requestSave s i y).identityItems = s.identityItems :=
  ⟨rfl, rfl, rfl, rfl⟩

/-- C8: `deleteFromUI` (Directory.remove) reports `true` exactly when the
id was present, and clears the selection pointer to the `-1` sentinel
exactly when the removed id is the current selection, leaving the
selection unchanged otherwise. -/
theorem deleteFromUI_result_and_selection (s : EngineState) (i : ID_T) :
    ((deleteFromUI s i).1 = true ↔ (∃ v, alookup s.identities i = some v)) ∧
    (deleteFromUI s i).2.currentIdentity =
      (if s.currentIdentity = i then -1 else s.currentIdentity) := by
  constructor
  · rw [show (deleteFromUI s i).1 = (alookup s.identities i).isSome from rfl]
    exact Option.isSome_iff_exists
  · rfl

/-- C9: the stored key order (which `snapshot` renders) stays in
first-seen insertion order under every operation of a push/removal
sequence. A push maps the order to the previous order followed by the
newly seen ids in order of first occurrence, so updating an
already-present id never changes its position; `deleteFromUI` and every
branch of `response` (unknown, success, failure) map the order to
`removeAll` of the previous order, which keeps the surviving entries in
their previous relative positions. -/
theorem addIdentities_snapshot_order_stable (s : EngineState) (l : List Identity)
    (i r : ID_T) (st : ResponseCode) (msg : String) :
    keysOf (addIdentities s l).identities =
      keysOf s.identities ++ firstSeenNew l (keysOf s.identities) ∧
    keysOf (deleteFromUI s i).2.identities = removeAll (keysOf s.identities) i ∧
    keysOf (response s r st msg).identities =
      (match alookup s.deleteResponseIDs r with
       | none => keysOf s.identities
       | some j =>
         match st with
         | ResponseCode.responseOK => removeAll (keysOf s.identities) j
         | ResponseCode.responseError => keysOf s.identities) := by
  refine ⟨?_, ?_, ?_⟩
  · rw [identities_addIdentities, keysOf_upsertMany]
  · rw [show (deleteFromUI s i).2.identities = aerase s.identities i from rfl]
    exact keysOf_aerase s.identities i
  · cases hl : alookup s.deleteResponseIDs r with
    | none => rw [response_unknown_noop s r st msg hl]
    | some j =>
      cases st with
      | responseOK =>
        rw [show (response s r ResponseCode.responseOK msg).identities
            = aerase s.identities j from by simp [response, hl, deleteFromUI]]
        exact keysOf_aerase s.identities j
      | responseError =>
        rw [show (response s r ResponseCode.responseError msg).identities
            = s.identities from by simp [response, hl]]

/-- C10: push handling, delete requests and reply handling all preserve
the invariant that an identity entry exists in `identities` exactly when
a UI item handle exists for that id in `identityItems`. -/
theorem engine_ops_preserve_items_invariant
    (s : EngineState) (l : List Identity) (i r : ID_T) (st : ResponseCode)
    (msg : String) (hinv : ItemsInv s) :
    ItemsInv (addIdentities s l) ∧
    ItemsInv (requestDelete s i r).2 ∧
    ItemsInv (response s r st msg) :=
  ⟨ItemsInv_addIdentities s l hinv, ItemsInv_requestDelete s i r hinv,
   ItemsInv_response s r st msg hinv⟩

/-- A sample state with identity 1 present and no pending correlation. -/
def freshState : EngineState :=
  { identities := [(1, sampleIdentity)]
    identityItems := [1]
    deleteResponseIDs := []
    currentIdentity := -1
    errorReports := []
    enableSignals := []
    sent := [] }

theorem response_success_removes_and_is_single_use_witness :
    alookup sampleState.deleteResponseIDs 5 = some 1 ∧
    (alookup (response sampleState 5 ResponseCode.responseOK "").identities 1 = none ∧
     alookup (response sampleState 5 ResponseCode.responseOK "").deleteResponseIDs 5 =
       none ∧
     response (response sampleState 5 ResponseCode.responseOK "") 5
         ResponseCode.responseError "x" =
       response sampleState 5 ResponseCode.responseOK "") :=
  ⟨by decide,
   response_success_removes_and_is_single_use sampleState 5 1 "" "x"
     ResponseCode.responseError (by decide)⟩

theorem addIdentities_replay_last_wins_and_idempotent_witness :
    (keysOf sampleState.identities).Nodup ∧
    (alookup (replayPushes sampleState [[{ id := 2, fields := "B" }],
          [{ id := 1, fields := "C" }]]).identities 2 =
        ofirst (lastPushed [[{ id := 2, fields := "B" }],
          [{ id := 1, fields := "C" }]].flatten 2) (alookup sampleState.identities 2) ∧
     (replayPushes (replayPushes sampleState [[{ id := 2, fields := "B" }],
          [{ id := 1, fields := "C" }]]) [[{ id := 2, fields := "B" }],
          [{ id := 1, fields := "C" }]]).identities =
       (replayPushes sampleState [[{ id := 2, fields := "B" }],
          [{ id := 1, fields := "C" }]]).identities) :=
  ⟨by decide,
   addIdentities_replay_last_wins_and_idempotent sampleState
     [[{ id := 2, fields := "B" }], [{ id := 1, fields := "C" }]] 2 (by decide)⟩

theorem response_failure_keeps_identity_reports_once_witness :
    alookup sampleState.deleteResponseIDs 5 = some 1 ∧
    ((response sampleState 5 ResponseCode.responseError "server busy").identities =
       sampleState.identities ∧
     (response sampleState 5 ResponseCode.responseError "server busy").deleteResponseIDs =
       aerase sampleState.deleteResponseIDs 5 ∧
     alookup (response sampleState 5
         ResponseCode.responseError "server busy").deleteResponseIDs 5 = none ∧
     (response sampleState 5 ResponseCode.responseError "server busy").errorReports =
       sampleState.errorReports ++ ["server busy"]) :=
  ⟨by decide,
   response_failure_keeps_identity_reports_once sampleState 5 1 "server busy"
     (by decide)⟩

theorem requestDelete_unknown_id_rejected_witness :
    alookup sampleState.identities 2 = none ∧
    requestDelete sampleState 2 9 = (DeleteResult.callerError, sampleState) :=
  ⟨by decide, requestDelete_unknown_id_rejected sampleState 2 9 (by decide)⟩

theorem requestDelete_double_rejected_single_correlation_witness :
    ((alookup freshState.identities 1).isSome = true ∧
     pendingDeleteFor freshState 1 = false ∧
     alookup freshState.deleteResponseIDs 10 = none) ∧
    (requestDelete (requestDelete freshState 1 10).2 1 11 =
       (DeleteResult.callerError, (requestDelete freshState 1 10).2) ∧
     ((requestDelete freshState 1 10).2.deleteResponseIDs.filter
         (fun p => decide (p.2 = 1))).length = 1) :=
  ⟨⟨by decide, by decide, by decide⟩,
   requestDelete_double_rejected_single_correlation freshState 1 10 11
     (by decide) (by decide) (by decide)⟩

theorem response_reenables_input_once_witness :
    alookup sampleState.deleteResponseIDs 5 = some 1 ∧
    (response sampleState 5 ResponseCode.responseError "m").enableSignals =
      sampleState.enableSignals ++ [true] :=
  ⟨by decide,
   response_reenables_input_once sampleState 5 1 ResponseCode.responseError "m"
     (by decide)⟩

theorem engine_ops_preserve_items_invariant_witness :
    ItemsInv sampleState ∧
    (ItemsInv (addIdentities sampleState [{ id := 2, fields := "B" }]) ∧
     ItemsInv (requestDelete sampleState 1 7).2 ∧
     ItemsInv (response sampleState 7 ResponseCode.responseOK "")) := by
  have hinv : ItemsInv sampleState := by
    intro k
    by_cases h1 : (1 : ID_T) = k
    · subst h1
      simp [sampleState, sampleIdentity, alookup]
    · have h2 : ¬ k = (1 : ID_T) := fun h => h1 h.symm
      simp [sampleState, alookup, h1, h2]
  exact ⟨hinv,
    engine_ops_preserve_items_invariant sampleState [{ id := 2, fields := "B" }] 1 7
      ResponseCode.responseOK "" hinv⟩

end Irc2me
